import Mathlib

/-!
Verification development for the `tradingbot` repository's python backtest
engine (`src/python_backtest`).

The portfolio simulator `Backtester.run` (backtester.py) is embedded as a
fold over the bar list: each pandas DataFrame row becomes a `Row`, the loop
body becomes `stepRow`, and the two circuit breakers (the 50%-single-step
drop halt and the below-1 forced liquidation, lines 255-293) become the
early-exit branches of `runAux`.  Floats are modelled by rationals; pandas
NaN shows up only in the ADX computation (`strategies/base.py`) and in the
max-drawdown division, where values are modelled by `Option ℚ` with `none`
standing for a non-finite float.
-/

/-- One input bar: the DataFrame row consumed by `Backtester.run`.
`day` is the calendar date of the timestamp index (two bars are on the same
trading day iff their `day` values are equal), `price` is the `Close`
column, `signal` the strategy signal for this timestamp. -/
structure Bar where
  day : ℕ
  price : ℚ
  signal : ℤ
  deriving DecidableEq

/-- One output row of the `portfolio` DataFrame built by `Backtester.run`
(columns initialized at backtester.py lines 71-79).  `signal` is the
recorded signal column (possibly overwritten by the stop-loss at lines
139/146), `position` the signed share count, `entry_price` the
entry-price column used for short-position valuation. -/
structure Row where
  day : ℕ
  price : ℚ
  signal : ℤ
  position : ℚ
  cash : ℚ
  holdings : ℚ
  total_value : ℚ
  daily_pnl : ℚ
  entry_price : ℚ
  deriving DecidableEq

/-- A row with all numeric fields zero, used as the `getD` default. -/
def blankRow : Row := ⟨0, 0, 0, 0, 0, 0, 0, 0, 0⟩

/-- The `Backtester` constructor parameters (backtester.py lines 34-38).
`reinvest` is the `reinvest_profits` attribute (the code fixes it to
`True`; it is kept as a field because the day-boundary branch tests it). -/
structure Config where
  initial_capital : ℚ
  position_size : ℚ
  stop_loss : ℚ
  reinvest : Bool

/-- Sign of the previous row's position, recomputed each iteration from the
previous portfolio row (backtester.py lines 102-107): 1 long, -1 short,
0 flat; 0 at the first bar. -/
def prevPos (prev : Option Row) : ℤ :=
  match prev with
  | none => 0
  | some p => if p.position > 0 then 1 else if p.position < 0 then -1 else 0

/-- Previous row's share count, read by the close-position branches
(backtester.py lines 188/200: `iloc[i-1]` when `i > 0`, else the
initialized 0 of the current row). -/
def prevShares (prev : Option Row) : ℚ :=
  match prev with
  | none => 0
  | some p => p.position

/-- Day-boundary cash handling (backtester.py lines 109-130).  Returns the
pre-trade cash written into the current row and the updated
`daily_start_value`.  On a new calendar day with reinvestment enabled and
the previous total value above `daily_start_value`, the profit is folded
into cash; in both new-day branches `daily_start_value` is reset to the
previous row's total value.  On the first bar the cash is the initial
capital and `daily_start_value` is left untouched. -/
def dayCash (cfg : Config) (prev : Option Row) (dsv : ℚ) (b : Bar) : ℚ × ℚ :=
  match prev with
  | none => (cfg.initial_capital, dsv)
  | some p =>
    if b.day ≠ p.day then
      (if cfg.reinvest = true ∧ dsv < p.total_value
        then p.cash + (p.total_value - dsv) else p.cash,
       p.total_value)
    else (p.cash, dsv)

/-- Stop-loss override (backtester.py lines 132-147): if long and the loss
versus the tracked entry price reaches `stop_loss`, the signal is forced to
-1 for this bar; if short and the adverse move reaches `stop_loss`, it is
forced to 1.  `eL` is the loop-local `entry_price` variable. -/
def effSignal (cfg : Config) (posPrev : ℤ) (eL price : ℚ) (sig : ℤ) : ℤ :=
  if posPrev = 1 ∧ (eL - price) / eL ≥ cfg.stop_loss then -1
  else if posPrev = -1 ∧ (price - eL) / eL ≥ cfg.stop_loss then 1
  else sig

/-- Result of the trade-execution block: new position share count, cash,
entry-price column value, the loop-local position flag after the block and
the loop-local entry price after the block. -/
structure TE where
  position : ℚ
  cash : ℚ
  entryCol : ℚ
  posAfter : ℤ
  eLoc : ℚ
  deriving DecidableEq

/-- Trade execution (backtester.py lines 149-223), checked in the code's
`elif` order on the (possibly stop-loss-overridden) signal `sig` and the
previous position sign `posPrev`.  `cashPre` is the cash already written to
the row by the day-boundary step.  The two negative-cash safety branches
mirror lines 162-165 and 182-185, where the code re-reads the just-zeroed
cash cell, so the fallback position is `0 / price`.  The buy entry leaves
the `entry_price` column at its initialized 0; only the short entry writes
it (line 178).  A bar with no matching branch carries the previous row's
position, cash and entry-price column forward (lines 211-223), discarding
`cashPre`. -/
def tradeExec (cfg : Config) (prev : Option Row) (posPrev : ℤ) (cashPre : ℚ)
    (sig : ℤ) (price eL : ℚ) : TE :=
  if sig = 1 ∧ posPrev = 0 then
    let tv := min cashPre (cashPre * cfg.position_size)
    if cashPre - tv < 0 then ⟨0 / price, 0, 0, 1, price⟩
    else ⟨tv / price, cashPre - tv, 0, 1, price⟩
  else if sig = -1 ∧ posPrev = 0 then
    let tv := min cashPre (cashPre * cfg.position_size)
    if cashPre < 0 then ⟨-(0 / price), 0, price, -1, price⟩
    else ⟨-(tv / price), cashPre, price, -1, price⟩
  else if sig = -1 ∧ posPrev = 1 then
    ⟨0, cashPre + prevShares prev * price, 0, 0, eL⟩
  else if sig = 1 ∧ posPrev = -1 then
    ⟨0, cashPre + |prevShares prev| * price, 0, 0, eL⟩
  else
    match prev with
    | some p => ⟨p.position, p.cash, p.entry_price, posPrev, eL⟩
    | none => ⟨0, cfg.initial_capital, 0, posPrev, eL⟩

/-- Holdings valuation (backtester.py lines 225-239): long positions are
marked at `shares * price`; short positions, when the loop-local position
flag is -1, at `(entry - price) * |shares|` where the entry price is the
row's `entry_price` column if positive, else the loop-local entry price;
flat (and the dead short-else branch) value 0. -/
def holdingsVal (position : ℚ) (posAfter : ℤ) (entryCol eLoc price : ℚ) : ℚ :=
  if position > 0 then position * price
  else if position < 0 then
    if posAfter = -1 then
      ((if entryCol > 0 then entryCol else eLoc) - price) * |position|
    else 0
  else 0

/-- One iteration of the simulation loop (backtester.py lines 94-243),
before the circuit-breaker checks: produces the row (with `daily_pnl` still
at its initialized 0) together with the updated loop-local entry price and
`daily_start_value`.  The row's `total_value` is `cash + holdings` of the
same row (line 242). -/
def stepRow (cfg : Config) (prev : Option Row) (eL dsv : ℚ) (b : Bar) :
    Row × ℚ × ℚ :=
  let posPrev := prevPos prev
  let cds := dayCash cfg prev dsv b
  let sig := effSignal cfg posPrev eL b.price b.signal
  let te := tradeExec cfg prev posPrev cds.1 sig b.price eL
  let h := holdingsVal te.position te.posAfter te.entryCol te.eLoc b.price
  (⟨b.day, b.price, sig, te.position, te.cash, h, te.cash + h, 0, te.entryCol⟩,
   te.eLoc, cds.2)

/-- Rows appended after the 50%-drop circuit breaker fires (backtester.py
lines 260-267): every remaining bar keeps its price and raw signal columns
and is filled with the values of the row *before* the halting bar
(`iloc[i-1]`), with `daily_pnl` 0. -/
def fillFrozen (p : Row) (rest : List Bar) : List Row :=
  rest.map (fun b => ⟨b.day, b.price, b.signal, p.position, p.cash,
    p.holdings, p.total_value, 0, p.entry_price⟩)

/-- Rows appended after the forced liquidation fires (backtester.py lines
285-292): every remaining bar keeps its price and raw signal columns and
has all portfolio fields zeroed. -/
def fillZero (rest : List Bar) : List Row :=
  rest.map (fun b => ⟨b.day, b.price, b.signal, 0, 0, 0, 0, 0, 0⟩)

/-- The forced-liquidation overwrite of the bar at which `total_value`
dropped below 1 (backtester.py lines 278-283): price and recorded signal
are kept, all portfolio fields are zeroed. -/
def zeroRow (r : Row) : Row :=
  { r with position := 0, cash := 0, holdings := 0, total_value := 0,
           daily_pnl := 0, entry_price := 0 }

/-- The simulation loop of `Backtester.run` (backtester.py lines 94-315).
Carries the previous produced row, the loop-local entry price, the
`daily_start_value` and the bar index.  Produces the portfolio row list
together with `some i` when a circuit breaker stopped the loop at bar `i`
(the `break`s at lines 268/293, observable in the real code only through
logging), `none` otherwise.  The 50%-drop check (guarded by `i > 0` and a
positive previous total, lines 246-268) precedes the below-1 liquidation
check (lines 274-293); on the non-halting path `daily_pnl` is written as
the difference of consecutive totals (lines 311-315). -/
def runAux (cfg : Config) : List Bar → Option Row → ℚ → ℚ → ℕ →
    List Row × Option ℕ
  | [], _, _, _, _ => ([], none)
  | b :: rest, prev, eL, dsv, i =>
    let s := stepRow cfg prev eL dsv b
    match prev with
    | some p =>
      if 0 < p.total_value ∧
          (s.1.total_value - p.total_value) / p.total_value < -(1/2 : ℚ) then
        (s.1 :: fillFrozen p rest, some i)
      else if s.1.total_value < 1 then
        (zeroRow s.1 :: fillZero rest, some i)
      else
        let r2 := { s.1 with daily_pnl := s.1.total_value - p.total_value }
        let t := runAux cfg rest (some r2) s.2.1 s.2.2 (i + 1)
        (r2 :: t.1, t.2)
    | none =>
      if s.1.total_value < 1 then
        (zeroRow s.1 :: fillZero rest, some i)
      else
        let t := runAux cfg rest (some s.1) s.2.1 s.2.2 (i + 1)
        (s.1 :: t.1, t.2)
termination_by structural bars => bars

/-- `Backtester.run` with the halt instrumentation: initial state has no
previous row, loop-local entry price 0 (line 87) and `daily_start_value`
equal to the initial capital (line 89). -/
def runI (cfg : Config) (bars : List Bar) : List Row × Option ℕ :=
  runAux cfg bars none 0 cfg.initial_capital 0

/-- The portfolio row sequence returned by `Backtester.run` (the
`portfolio` entry of the results dict, line 328). -/
def run (cfg : Config) (bars : List Bar) : List Row :=
  (runI cfg bars).1

/-- `num_trades` metric (backtester.py line 334): number of portfolio rows
whose recorded signal is nonzero. -/
def numTrades (rows : List Row) : ℕ :=
  (rows.filter (fun r => r.signal ≠ 0)).length

/-- Division as computed by pandas on floats, with `none` modelling a
non-finite result.  In every reachable use in this development the
numerator is 0 whenever the denominator is 0, so `none` stands for the
float NaN produced by `0.0 / 0.0`. -/
def pdiv (x y : ℚ) : Option ℚ :=
  if y = 0 then none else some (x / y)

/-- Drawdown series of `_calculate_max_drawdown` (backtester.py lines
447-461): running peak via `expanding().max()` and per-bar
`(value - peak) / peak`, NaN-aware through `pdiv`. -/
def ddAuxN (peak : ℚ) : List ℚ → List (Option ℚ)
  | [] => []
  | v :: vs => pdiv (v - max peak v) (max peak v) :: ddAuxN (max peak v) vs

/-- NaN-free counterpart of `ddAuxN`, used to reason about equity curves
whose running peak stays positive. -/
def ddAuxP (peak : ℚ) : List ℚ → List ℚ
  | [] => []
  | v :: vs => (v - max peak v) / max peak v :: ddAuxP (max peak v) vs

/-- The drawdown series of an equity curve: the running peak starts at the
first value. -/
def drawdownsN : List ℚ → List (Option ℚ)
  | [] => []
  | v :: vs => ddAuxN v (v :: vs)

/-- pandas `Series.min()` with its default NaN skipping: the minimum of
the non-NaN entries, NaN when there is none. -/
def minSkipNa (l : List (Option ℚ)) : Option ℚ :=
  match l.filterMap id with
  | [] => none
  | x :: xs => some (xs.foldl min x)

/-- `Backtester._calculate_max_drawdown` (backtester.py lines 447-461)
applied to the `total_value` column: minimum of the drawdown series. -/
def calc_max_drawdown (l : List ℚ) : Option ℚ :=
  minSkipNa (drawdownsN l)

/-- Loop of `_apply_min_holding_period` (moving_average.py lines 302-340;
the identical loop appears in mean_reversion.py lines 147-168), carrying
the index, the filter's position state and the position start index.  A
nonzero signal is kept when flat, kept on a reversal once
`i - position_start ≥ min_periods`, and otherwise replaced by 0; zero
signals pass through. -/
def amhpAux (minPeriods : ℕ) : List ℤ → ℕ → ℤ → ℕ → List ℤ
  | [], _, _, _ => []
  | s :: rest, i, pos, posStart =>
    if s ≠ 0 then
      if pos = 0 then s :: amhpAux minPeriods rest (i + 1) s i
      else if pos ≠ s then
        if minPeriods ≤ i - posStart then s :: amhpAux minPeriods rest (i + 1) s i
        else 0 :: amhpAux minPeriods rest (i + 1) pos posStart
      else 0 :: amhpAux minPeriods rest (i + 1) pos posStart
    else s :: amhpAux minPeriods rest (i + 1) pos posStart
termination_by structural l => l

/-- `_apply_min_holding_period(signal, min_periods)`: the loop started
with index 0, no position and `position_start = 0`. -/
def amhp (minPeriods : ℕ) (l : List ℤ) : List ℤ :=
  amhpAux minPeriods l 0 0 0

/-- One OHLC input row as consumed by `Strategy._calculate_adx`
(strategies/base.py lines 75-121): only `High`, `Low`, `Close` are read. -/
structure HLC where
  high : ℚ
  low : ℚ
  close : ℚ
  deriving DecidableEq

/-- pandas `Series.shift(1)`: the previous element, NaN (`none`) at the
first index. -/
def shift1 (l : List ℚ) : List (Option ℚ) :=
  none :: l.dropLast.map some

/-- Elementwise difference of a series and a shifted series, NaN
propagating (base.py lines 96-97). -/
def diffPrev (l : List ℚ) (p : List (Option ℚ)) : List (Option ℚ) :=
  List.zipWith (fun x o => match o with | none => none | some y => some (x - y)) l p

/-- `np.where((a > b) & (a > 0), a, 0)` on two possibly-NaN series
(base.py lines 99-100): comparisons against NaN are false, so any NaN
input yields 0. -/
def dmWhere (a b : Option ℚ) : ℚ :=
  match a, b with
  | some x, some y => if x > y ∧ x > 0 then x else 0
  | some _, none => 0
  | none, _ => 0

/-- True range of one bar (base.py lines 102-106): the row-wise max of
`high - low`, `|high - prevClose|`, `|low - prevClose|`, where pandas
`max(axis=1)` skips the NaN of the shifted close at the first bar. -/
def trAt (h l : ℚ) (pc : Option ℚ) : ℚ :=
  match pc with
  | none => h - l
  | some c => max (h - l) (max |h - c| |l - c|)

/-- Window `l[max(0, t+1-w) .. t]` of a rolling computation at index `t`. -/
def windowAt {α : Type} (w : ℕ) (l : List α) (t : ℕ) : List α :=
  (l.take (t + 1)).drop (t + 1 - w)

/-- `Series.rolling(window=w, min_periods=1).mean()` on a NaN-free
series. -/
def rollingMean (w : ℕ) (l : List ℚ) : List ℚ :=
  (List.range l.length).map
    (fun t => (windowAt w l t).sum / ((windowAt w l t).length : ℚ))

/-- `Series.rolling(window=w, min_periods=1).mean()` on a series with
NaNs: pandas averages the non-NaN entries of the window and yields NaN
when the window has none. -/
def rollingMeanNa (w : ℕ) (l : List (Option ℚ)) : List (Option ℚ) :=
  (List.range l.length).map
    (fun t =>
      match (windowAt w l t).filterMap id with
      | [] => none
      | x :: xs => some ((x :: xs).sum / (((x :: xs).length : ℕ) : ℚ)))

/-- Smoothed `+DM` series of `_calculate_adx` (base.py lines 96-111). -/
def plusDMSmooth (w : ℕ) (l : List HLC) : List ℚ :=
  rollingMean w (List.zipWith dmWhere
    (diffPrev (l.map HLC.high) (shift1 (l.map HLC.high)))
    (List.zipWith (fun x o => match o with | none => none | some y => some (y - x))
      (l.map HLC.low) (shift1 (l.map HLC.low))))

/-- Smoothed `-DM` series of `_calculate_adx` (base.py lines 97-111):
`low_diff = low.shift(1) - low`, kept when greater than `high_diff` and
positive. -/
def minusDMSmooth (w : ℕ) (l : List HLC) : List ℚ :=
  rollingMean w (List.zipWith (fun a b => dmWhere b a)
    (diffPrev (l.map HLC.high) (shift1 (l.map HLC.high)))
    (List.zipWith (fun x o => match o with | none => none | some y => some (y - x))
      (l.map HLC.low) (shift1 (l.map HLC.low))))

/-- Smoothed true-range series of `_calculate_adx` (base.py lines
102-109). -/
def trSmooth (w : ℕ) (l : List HLC) : List ℚ :=
  rollingMean w (List.zipWith (fun b pc => trAt b.high b.low pc)
    l (shift1 (l.map HLC.close)))

/-- `+DI = 100 * (plus_dm_smooth / tr_smooth)` (base.py line 114),
NaN-aware. -/
def plusDI (w : ℕ) (l : List HLC) : List (Option ℚ) :=
  List.zipWith (fun d tr => (pdiv d tr).map (fun x => 100 * x))
    (plusDMSmooth w l) (trSmooth w l)

/-- `-DI = 100 * (minus_dm_smooth / tr_smooth)` (base.py line 115),
NaN-aware. -/
def minusDI (w : ℕ) (l : List HLC) : List (Option ℚ) :=
  List.zipWith (fun d tr => (pdiv d tr).map (fun x => 100 * x))
    (minusDMSmooth w l) (trSmooth w l)

/-- `DX = 100 * abs(+DI - -DI) / (+DI + -DI)` (base.py line 118): NaN when
either DI is NaN or the denominator is 0 (in which case the numerator is
0 as well, so the float result is `0.0 / 0.0`, NaN). -/
def dxSeries (w : ℕ) (l : List HLC) : List (Option ℚ) :=
  List.zipWith
    (fun a b => match a, b with
      | some p, some m => pdiv (100 * |p - m|) (p + m)
      | _, _ => none)
    (plusDI w l) (minusDI w l)

/-- `ADX = dx.rolling(window=w, min_periods=1).mean()` (base.py line
119). -/
def adxSeries (w : ℕ) (l : List HLC) : List (Option ℚ) :=
  rollingMeanNa w (dxSeries w l)

/-- Backtester configuration used for concrete runs: initial capital 100,
`position_size` 1, `stop_loss` 10 (1000%, i.e. never triggered),
reinvestment on (as hard-coded in `Backtester.__init__`). -/
def cfgA : Config := ⟨100, 1, 10, true⟩

/-- Intraday run that fires the 50%-drop circuit breaker: a short entered
at price 100 is marked to market at price 300, taking the total value from
100 to -100 in one step. -/
def barsHalt : List Bar := [⟨0, 100, -1⟩, ⟨0, 300, 0⟩, ⟨0, 300, 0⟩]

/-- Run with a profitable day followed by a Hold bar on the next calendar
day: buy at 100, price rises to 110 intraday, then a new day starts at the
same price with no signal. -/
def barsDay : List Bar := [⟨0, 100, 1⟩, ⟨0, 110, 0⟩, ⟨1, 110, 0⟩]

/-- Signal-free single-bar run with initial capital 1/2 (< 1): a valid
configuration per the spec (`initial_capital > 0`). -/
def cfgHalf : Config := ⟨1/2, 1, 10, true⟩

/-- A single bar with no signal. -/
def barsOne : List Bar := [⟨0, 100, 0⟩]

/-- Two signal-free bars, used with `cfgHalf` for the max-drawdown
counterexample. -/
def barsTwo : List Bar := [⟨0, 5, 0⟩, ⟨1, 7, 0⟩]

/-- Run holding a long position while the strategy keeps signalling Buy:
enter at 100, then a second Buy signal at price 110. -/
def barsRebuy : List Bar := [⟨0, 100, 1⟩, ⟨0, 110, 1⟩]

/-- OHLC input with bar-to-bar directional movement zero but a nonzero
daily range: High 101, Low 99, Close 100 on every bar.  Then
`+DM = -DM = 0` while the true range is 2, so `+DI = -DI = 0` and the DX
denominator `+DI + -DI` is 0. -/
def hlcFlat : List HLC := [⟨101, 99, 100⟩, ⟨101, 99, 100⟩]

/-- A flat previous row (day 0, cash 50, total value 60) used to
instantiate the single-step theorems. -/
def rowFlat : Row := ⟨0, 110, 0, 0, 50, 0, 60, 0, 0⟩

/-- A previous row holding a long position of 1 share entered at 100. -/
def rowLong : Row := ⟨0, 100, 1, 1, 0, 100, 100, 0, 0⟩

/-- A next-day bar with a Sell signal at price 10. -/
def barShort : Bar := ⟨1, 10, -1⟩

/-- A same-day bar with a Buy signal at price 110. -/
def barRebuy : Bar := ⟨0, 110, 1⟩

/-- The claim `daily_pnl[t] = total_value[t] - total_value[t-1]` stated
recursively along a row list: `dpnlOk p rows` says every row's `daily_pnl`
equals its total value minus its predecessor's, with `p` the row preceding
the list. -/
def dpnlOk : Row → List Row → Prop
  | _, [] => True
  | p, r :: rs => (r.daily_pnl = r.total_value - p.total_value) ∧ dpnlOk r rs

/-- Every row produced by the loop body satisfies
`total_value = cash + holdings` by construction (backtester.py line 242). -/
theorem stepRow_total (cfg : Config) (prev : Option Row) (eL dsv : ℚ) (b : Bar) :
    ((stepRow cfg prev eL dsv b).1).total_value
      = ((stepRow cfg prev eL dsv b).1).cash + ((stepRow cfg prev eL dsv b).1).holdings := rfl

/-- Inductive form of the snapshot identity: every row emitted by the
simulation loop, including circuit-breaker fill rows, satisfies
`total_value = cash + holdings` provided the carried previous row does. -/
theorem runAux_inv (cfg : Config) (bars : List Bar) :
    ∀ (prev : Option Row) (eL dsv : ℚ) (i : ℕ),
    (∀ p, prev = some p → p.total_value = p.cash + p.holdings) →
    ∀ r ∈ (runAux cfg bars prev eL dsv i).1, r.total_value = r.cash + r.holdings := by
  induction bars with
  | nil =>
    intro prev eL dsv i hp r hr
    simp [runAux] at hr
  | cons b rest ih =>
    intro prev eL dsv i hp r hr
    cases prev with
    | some p =>
      simp only [runAux] at hr
      split_ifs at hr with h1 h2
      · rcases List.mem_cons.1 hr with h | h
        · rw [h]; exact stepRow_total cfg (some p) eL dsv b
        · rcases List.mem_map.1 h with ⟨b', _, hb'⟩
          rw [← hb']
          exact hp p rfl
      · rcases List.mem_cons.1 hr with h | h
        · rw [h]; simp [zeroRow]
        · rcases List.mem_map.1 h with ⟨b', _, hb'⟩
          rw [← hb']; simp
      · rcases List.mem_cons.1 hr with h | h
        · rw [h]; exact stepRow_total cfg (some p) eL dsv b
        · refine ih _ _ _ _ ?_ r h
          intro q hq
          injection hq with hq2
          subst hq2
          exact stepRow_total cfg (some p) eL dsv b
    | none =>
      simp only [runAux] at hr
      split_ifs at hr with h1
      · rcases List.mem_cons.1 hr with h | h
        · rw [h]; simp [zeroRow]
        · rcases List.mem_map.1 h with ⟨b', _, hb'⟩
          rw [← hb']; simp
      · rcases List.mem_cons.1 hr with h | h
        · rw [h]; exact stepRow_total cfg none eL dsv b
        · refine ih _ _ _ _ ?_ r h
          intro q hq
          injection hq with hq2
          subst hq2
          exact stepRow_total cfg none eL dsv b

/-- C1: for every bar of a completed run — including bars filled in after a
circuit breaker fires — the snapshot satisfies
`total_value = cash + holdings` (exactly, in the rational model; the claim
allows floating tolerance). -/
theorem C1_snapshot_identity (cfg : Config) (bars : List Bar) :
    ∀ r ∈ run cfg bars, r.total_value = r.cash + r.holdings :=
  runAux_inv cfg bars none 0 cfg.initial_capital 0 (by intro p h; cases h)

/-- Witness for C1: the identity instantiated at the third row of a
concrete halted run (a frozen fill row). -/
theorem C1_snapshot_identity_witness :
    ((run cfgA barsHalt).getD 2 blankRow).total_value
      = ((run cfgA barsHalt).getD 2 blankRow).cash
        + ((run cfgA barsHalt).getD 2 blankRow).holdings :=
  C1_snapshot_identity cfgA barsHalt _
    (of_decide_eq_true (by with_unfolding_all rfl))

/-- On the non-halting path the loop writes `daily_pnl` as the difference
of consecutive totals (backtester.py lines 311-315): if the run finishes
without a circuit breaker, the whole row list satisfies `dpnlOk`. -/
theorem runAux_dpnl (cfg : Config) (bars : List Bar) :
    ∀ (p : Row) (eL dsv : ℚ) (i : ℕ) (rows : List Row),
    runAux cfg bars (some p) eL dsv i = (rows, none) → dpnlOk p rows := by
  induction bars with
  | nil =>
    intro p eL dsv i rows h
    simp only [runAux] at h
    cases h
    trivial
  | cons b rest ih =>
    intro p eL dsv i rows h
    simp only [runAux] at h
    split_ifs at h with h1 h2
    · have h2 := congrArg Prod.snd h
      simp at h2
    · have h3 := congrArg Prod.snd h
      simp at h3
    · rw [Prod.mk.injEq] at h
      obtain ⟨h3, h4⟩ := h
      subst h3
      refine ⟨rfl, ?_⟩
      exact ih _ _ _ _ _ (by rw [← h4])

/-- Index form of `dpnlOk`: the `t`-th row's `daily_pnl` is its total
value minus that of the row at `t-1` (with `p` prepended as row `-1`). -/
theorem dpnlOk_getD (rows : List Row) :
    ∀ (p : Row), dpnlOk p rows → ∀ t, t < rows.length →
    (rows.getD t blankRow).daily_pnl
      = (rows.getD t blankRow).total_value - ((p :: rows).getD t blankRow).total_value := by
  induction rows with
  | nil => intro p _ t ht; simp at ht
  | cons r rs ih =>
    intro p hok t ht
    obtain ⟨h1, h2⟩ := hok
    cases t with
    | zero => simpa using h1
    | succ s =>
      have h3 := ih r h2 s (by simpa using ht)
      simpa using h3

/-- C4 (amended): for every run that completes with no circuit breaker and
every bar index `t > 0`, `daily_pnl[t] = total_value[t] - total_value[t-1]`.
The original claim additionally asserted the identity at and after a
circuit-breaker bar, where the code instead leaves `daily_pnl` at 0
(`C4_cex`). -/
theorem C4_amended (cfg : Config) (bars : List Bar) (rows : List Row)
    (hrun : runI cfg bars = (rows, none)) (t : ℕ) (ht : 0 < t) (hlen : t < rows.length) :
    (rows.getD t blankRow).daily_pnl
      = (rows.getD t blankRow).total_value
        - (rows.getD (t - 1) blankRow).total_value := by
  cases bars with
  | nil =>
    rw [runI] at hrun
    simp only [runAux] at hrun
    rw [Prod.mk.injEq] at hrun
    obtain ⟨h3, _⟩ := hrun
    subst h3
    simp at hlen
  | cons b rest =>
    rw [runI] at hrun
    simp only [runAux] at hrun
    split_ifs at hrun with hliq
    · have h2 := congrArg Prod.snd hrun
      simp at h2
    · rw [Prod.mk.injEq] at hrun
      obtain ⟨h3, h4⟩ := hrun
      subst h3
      have hok := runAux_dpnl cfg rest _ _ _ _ _ (by rw [← h4])
      cases t with
      | zero => exact absurd ht (by simp)
      | succ s =>
        have h5 := dpnlOk_getD _ _ hok s (by simpa using hlen)
        simpa using h5

/-- Counterexample for C4 as stated: in the concrete run `barsHalt` the
50%-drop breaker fires at bar 1; its `daily_pnl` is 0 while
`total_value[1] - total_value[0] = -200`. -/
theorem C4_cex :
    ¬ (((run cfgA barsHalt).getD 1 blankRow).daily_pnl
      = ((run cfgA barsHalt).getD 1 blankRow).total_value
        - ((run cfgA barsHalt).getD 0 blankRow).total_value) :=
  of_decide_eq_true (by with_unfolding_all rfl)

/-- Witness for C4 (amended) at bar 2 of a concrete breaker-free run. -/
theorem C4_amended_witness :
    ((run cfgA barsDay).getD 2 blankRow).daily_pnl
      = ((run cfgA barsDay).getD 2 blankRow).total_value
        - ((run cfgA barsDay).getD 1 blankRow).total_value :=
  C4_amended cfgA barsDay (run cfgA barsDay)
    (of_decide_eq_true (by with_unfolding_all rfl)) 2 (by norm_num)
    (of_decide_eq_true (by with_unfolding_all rfl))

/-- C3 (amended): on a day-boundary bar with reinvestment enabled and a
profit over `daily_start_value`, the profit is folded into the pre-trade
cash and `daily_start_value` is reset to the previous total — but the
reinvested cash survives to the row only when a trade branch executes
(here: a short entry); when the effective signal is Hold, the maintain
branch overwrites cash with the previous bar's cash, discarding the
reinvestment.  The original claim asserted ending cash
`= prev cash + profit` for any signal including Hold (`C3_cex`). -/
theorem C3_amended (cfg : Config) (p : Row) (eL dsv : ℚ) (b : Bar)
    (hday : b.day ≠ p.day) (hri : cfg.reinvest = true) (hprof : dsv < p.total_value)
    (hflat : p.position = 0) (hcash : 0 ≤ p.cash) :
    (b.signal = 0 → ((stepRow cfg (some p) eL dsv b).1).cash = p.cash) ∧
    (b.signal = -1 →
      ((stepRow cfg (some p) eL dsv b).1).cash = p.cash + (p.total_value - dsv)) ∧
    (stepRow cfg (some p) eL dsv b).2.2 = p.total_value := by
  have hpos : prevPos (some p) = 0 := by simp [prevPos, hflat]
  have hcds : dayCash cfg (some p) dsv b
      = (p.cash + (p.total_value - dsv), p.total_value) := by
    simp [dayCash, hday, hri, hprof]
  refine ⟨?_, ?_, ?_⟩
  · intro hs
    simp [stepRow, hpos, hcds, effSignal, tradeExec, hs]
  · intro hs
    have hc : ¬ (p.cash + (p.total_value - dsv) < 0) := by
      push_neg
      have := sub_pos.2 hprof
      linarith
    simp [stepRow, hpos, hcds, effSignal, tradeExec, hs, hc]
  · simp [stepRow, hcds]

/-- C7: at a bar whose effective signal is Sell while the position is flat,
the simulator enters a short whose recorded share count is the negative of
`min(cash, cash * position_size) / price` computed on the bar's pre-trade
cash, the bar's ending cash equals that pre-trade cash unchanged (no
short-sale proceeds are credited), and the entry price column records the
bar's price. -/
theorem C7_short_entry (cfg : Config) (prev : Option Row) (eL dsv : ℚ) (b : Bar)
    (hflat : prevPos prev = 0) (hsig : b.signal = -1)
    (hcash : 0 ≤ (dayCash cfg prev dsv b).1) :
    ((stepRow cfg prev eL dsv b).1).position
      = -(min (dayCash cfg prev dsv b).1
            ((dayCash cfg prev dsv b).1 * cfg.position_size) / b.price) ∧
    ((stepRow cfg prev eL dsv b).1).cash = (dayCash cfg prev dsv b).1 ∧
    ((stepRow cfg prev eL dsv b).1).entry_price = b.price := by
  have heff : effSignal cfg 0 eL b.price b.signal = -1 := by
    simp [effSignal, hsig]
  have hnc : ¬ ((dayCash cfg prev dsv b).1 < 0) := not_lt.2 hcash
  simp [stepRow, hflat, heff, tradeExec, hnc]

/-- C9 (amended): a Buy signal while long, or a Sell signal while short
(with the stop-loss not triggering), executes no trade — shares, cash and
the entry-price column are carried forward unchanged — but the holdings
are revalued at the current price (long: `shares * price`; short:
`(entry - price) * |shares|`), not carried forward; the recorded signal
stays nonzero, so the bar counts toward `num_trades`.  The original claim
asserted that the holdings are carried forward unchanged (`C9_cex`). -/
theorem C9_amended (cfg : Config) (p : Row) (eL dsv : ℚ) (b : Bar) :
    (p.position > 0 → b.signal = 1 → (eL - b.price) / eL < cfg.stop_loss →
      ((stepRow cfg (some p) eL dsv b).1).position = p.position ∧
      ((stepRow cfg (some p) eL dsv b).1).cash = p.cash ∧
      ((stepRow cfg (some p) eL dsv b).1).entry_price = p.entry_price ∧
      ((stepRow cfg (some p) eL dsv b).1).holdings = p.position * b.price ∧
      ((stepRow cfg (some p) eL dsv b).1).signal = 1 ∧
      numTrades [(stepRow cfg (some p) eL dsv b).1] = 1) ∧
    (p.position < 0 → b.signal = -1 → (b.price - eL) / eL < cfg.stop_loss →
      ((stepRow cfg (some p) eL dsv b).1).position = p.position ∧
      ((stepRow cfg (some p) eL dsv b).1).cash = p.cash ∧
      ((stepRow cfg (some p) eL dsv b).1).entry_price = p.entry_price ∧
      ((stepRow cfg (some p) eL dsv b).1).holdings
        = ((if p.entry_price > 0 then p.entry_price else eL) - b.price) * |p.position| ∧
      ((stepRow cfg (some p) eL dsv b).1).signal = -1 ∧
      numTrades [(stepRow cfg (some p) eL dsv b).1] = 1) := by
  constructor
  · intro hpos hsig hsl
    have hpp : prevPos (some p) = 1 := by simp [prevPos, hpos]
    have hsl2 : ¬ ((eL - b.price) / eL ≥ cfg.stop_loss) := not_le.2 hsl
    have heff : effSignal cfg 1 eL b.price b.signal = 1 := by
      simp [effSignal, hsl2, hsig]
    have hte : tradeExec cfg (some p) 1 (dayCash cfg (some p) dsv b).1 1 b.price eL
        = ⟨p.position, p.cash, p.entry_price, 1, eL⟩ := by
      simp [tradeExec]
    have hhv : holdingsVal p.position 1 p.entry_price eL b.price = p.position * b.price := by
      simp [holdingsVal, hpos]
    simp [stepRow, hpp, heff, hte, hhv, numTrades]
  · intro hpos hsig hsl
    have hpp : prevPos (some p) = -1 := by
      simp [prevPos, hpos, asymm hpos]
    have hsl2 : ¬ ((b.price - eL) / eL ≥ cfg.stop_loss) := not_le.2 hsl
    have heff : effSignal cfg (-1) eL b.price b.signal = -1 := by
      simp [effSignal, hsl2, hsig]
    have hte : tradeExec cfg (some p) (-1) (dayCash cfg (some p) dsv b).1 (-1) b.price eL
        = ⟨p.position, p.cash, p.entry_price, -1, eL⟩ := by
      simp [tradeExec]
    have hhv : holdingsVal p.position (-1) p.entry_price eL b.price
        = ((if p.entry_price > 0 then p.entry_price else eL) - b.price) * |p.position| := by
      simp [holdingsVal, hpos, asymm hpos]
    simp [stepRow, hpp, heff, hte, hhv, numTrades]

/-- Witness for C3 (amended): a short-entry bar on a new day with profit
20 over `daily_start_value` 40 keeps the reinvested cash, and
`daily_start_value` is reset. -/
theorem C3_amended_witness :
    ((stepRow cfgA (some rowFlat) 0 40 barShort).1).cash
        = rowFlat.cash + (rowFlat.total_value - 40) ∧
    (stepRow cfgA (some rowFlat) 0 40 barShort).2.2 = rowFlat.total_value := by
  have h := C3_amended cfgA rowFlat 0 40 barShort
    (of_decide_eq_true (by with_unfolding_all rfl)) rfl
    (of_decide_eq_true (by with_unfolding_all rfl)) rfl
    (of_decide_eq_true (by with_unfolding_all rfl))
  exact ⟨h.2.1 rfl, h.2.2⟩

/-- Witness for C7 at a concrete flat row and Sell bar. -/
theorem C7_short_entry_witness :
    ((stepRow cfgA (some rowFlat) 0 40 barShort).1).position
      = -(min (dayCash cfgA (some rowFlat) 40 barShort).1
            ((dayCash cfgA (some rowFlat) 40 barShort).1 * cfgA.position_size)
          / barShort.price) ∧
    ((stepRow cfgA (some rowFlat) 0 40 barShort).1).cash
      = (dayCash cfgA (some rowFlat) 40 barShort).1 ∧
    ((stepRow cfgA (some rowFlat) 0 40 barShort).1).entry_price = barShort.price :=
  C7_short_entry cfgA (some rowFlat) 0 40 barShort
    (of_decide_eq_true (by with_unfolding_all rfl)) rfl
    (of_decide_eq_true (by with_unfolding_all rfl))

/-- Witness for C9 (amended): a repeated Buy while long 1 share entered at
100, at price 110. -/
theorem C9_amended_witness :
    ((stepRow cfgA (some rowLong) 100 100 barRebuy).1).position = rowLong.position ∧
    ((stepRow cfgA (some rowLong) 100 100 barRebuy).1).cash = rowLong.cash ∧
    ((stepRow cfgA (some rowLong) 100 100 barRebuy).1).entry_price = rowLong.entry_price ∧
    ((stepRow cfgA (some rowLong) 100 100 barRebuy).1).holdings
      = rowLong.position * barRebuy.price ∧
    ((stepRow cfgA (some rowLong) 100 100 barRebuy).1).signal = 1 ∧
    numTrades [(stepRow cfgA (some rowLong) 100 100 barRebuy).1] = 1 :=
  (C9_amended cfgA rowLong 100 100 barRebuy).1
    (of_decide_eq_true (by with_unfolding_all rfl)) rfl
    (of_decide_eq_true (by with_unfolding_all rfl))

/-- Counterexample for C3 as stated: in the run `barsDay` (buy at 100,
price rises to 110 intraday, Hold bar on the next day) the day-boundary
profit of 10 is first added to cash and then discarded by the maintain
branch, so bar 2's cash is 0, not the claimed `cash[1] + profit = 10`
(here `daily_start_value` at bar 2 is the initial capital 100). -/
theorem C3_cex :
    ¬ (((run cfgA barsDay).getD 2 blankRow).cash
      = ((run cfgA barsDay).getD 1 blankRow).cash
        + (((run cfgA barsDay).getD 1 blankRow).total_value - 100)) :=
  of_decide_eq_true (by with_unfolding_all rfl)

/-- Counterexample for C9 as stated: in the run `barsRebuy` (Buy at 100,
Buy again at 110 while long) the holdings at bar 1 are 110, marked to
market, not the previous bar's 100. -/
theorem C9_cex :
    ¬ (((run cfgA barsRebuy).getD 1 blankRow).holdings
      = ((run cfgA barsRebuy).getD 0 blankRow).holdings) :=
  of_decide_eq_true (by with_unfolding_all rfl)

/-- A Hold bar while flat carries cash forward and keeps the portfolio
flat: position 0, holdings 0, total value equal to the carried cash. -/
theorem stepRow_hold_some (cfg : Config) (p : Row) (eL dsv : ℚ) (b : Bar)
    (hflat : p.position = 0) (hsig : b.signal = 0) :
    ((stepRow cfg (some p) eL dsv b).1).position = 0 ∧
    ((stepRow cfg (some p) eL dsv b).1).cash = p.cash ∧
    ((stepRow cfg (some p) eL dsv b).1).holdings = 0 ∧
    ((stepRow cfg (some p) eL dsv b).1).total_value = p.cash := by
  have hpos : prevPos (some p) = 0 := by simp [prevPos, hflat]
  have heff : effSignal cfg 0 eL b.price b.signal = 0 := by simp [effSignal, hsig]
  simp [stepRow, hpos, heff, tradeExec, holdingsVal, hflat]

/-- The first bar with a Hold signal initializes the row at the initial
capital with no position. -/
theorem stepRow_hold_none (cfg : Config) (eL dsv : ℚ) (b : Bar)
    (hsig : b.signal = 0) :
    ((stepRow cfg none eL dsv b).1).position = 0 ∧
    ((stepRow cfg none eL dsv b).1).cash = cfg.initial_capital ∧
    ((stepRow cfg none eL dsv b).1).holdings = 0 ∧
    ((stepRow cfg none eL dsv b).1).total_value = cfg.initial_capital := by
  have hpos : prevPos (none : Option Row) = 0 := by simp [prevPos]
  have heff : effSignal cfg 0 eL b.price b.signal = 0 := by simp [effSignal, hsig]
  simp [stepRow, hpos, heff, tradeExec, holdingsVal]

/-- Inductive form of C6: if every remaining signal is Hold and the
carried row is flat at the initial capital (which is at least 1), every
emitted row stays flat at the initial capital and no circuit breaker
fires. -/
theorem runAux_hold (cfg : Config) (hcap : 1 ≤ cfg.initial_capital) (bars : List Bar) :
    ∀ (prev : Option Row) (eL dsv : ℚ) (i : ℕ),
    (∀ p, prev = some p → p.position = 0 ∧ p.cash = cfg.initial_capital
        ∧ p.total_value = cfg.initial_capital) →
    (∀ b ∈ bars, b.signal = 0) →
    (∀ r ∈ (runAux cfg bars prev eL dsv i).1,
        r.position = 0 ∧ r.cash = cfg.initial_capital ∧ r.holdings = 0
          ∧ r.total_value = cfg.initial_capital) ∧
    (runAux cfg bars prev eL dsv i).2 = none := by
  induction bars with
  | nil =>
    intro prev eL dsv i hp hsig
    refine ⟨?_, by simp [runAux]⟩
    intro r hr
    simp [runAux] at hr
  | cons b rest ih =>
    intro prev eL dsv i hp hsig
    have hsb : b.signal = 0 := hsig b (List.mem_cons_self b rest)
    have hsrest : ∀ x ∈ rest, x.signal = 0 := fun x hx => hsig x (List.mem_cons_of_mem b hx)
    cases prev with
    | some p =>
      obtain ⟨hp1, hp2, hp3⟩ := hp p rfl
      obtain ⟨hq1, hq2, hq3, hq4⟩ := stepRow_hold_some cfg p eL dsv b hp1 hsb
      have htot : ((stepRow cfg (some p) eL dsv b).1).total_value = cfg.initial_capital := by
        rw [hq4, hp2]
      have hnb : ¬ (0 < p.total_value ∧
          (((stepRow cfg (some p) eL dsv b).1).total_value - p.total_value)
            / p.total_value < -(1/2 : ℚ)) := by
        rw [htot, hp3]
        intro ⟨hx, hy⟩
        rw [sub_self, zero_div] at hy
        linarith
      have hnl : ¬ (((stepRow cfg (some p) eL dsv b).1).total_value < 1) := by
        rw [htot]
        exact not_lt.2 hcap
      simp only [runAux, hnb, hnl, if_false, if_neg]
      constructor
      · intro r hr
        rcases List.mem_cons.1 hr with h | h
        · subst h
          refine ⟨hq1, by rw [hq2, hp2], hq3, htot⟩
        · refine ((ih _ _ _ _ ?_ hsrest).1) r h
          intro q hq
          injection hq with hq2
          subst hq2
          exact ⟨hq1, by rw [hq2, hp2], htot⟩
      · exact (ih _ _ _ _ (by
          intro q hq
          injection hq with hq2
          subst hq2
          exact ⟨hq1, by rw [hq2, hp2], htot⟩) hsrest).2
    | none =>
      obtain ⟨hq1, hq2, hq3, hq4⟩ := stepRow_hold_none cfg eL dsv b hsb
      have hnl : ¬ (((stepRow cfg none eL dsv b).1).total_value < 1) := by
        rw [hq4]
        exact not_lt.2 hcap
      simp only [runAux, hnl, if_neg]
      constructor
      · intro r hr
        rcases List.mem_cons.1 hr with h | h
        · subst h
          exact ⟨hq1, hq2, hq3, hq4⟩
        · refine ((ih _ _ _ _ ?_ hsrest).1) r h
          intro q hq
          injection hq with hq2
          subst hq2
          exact ⟨hq1, hq2, hq4⟩
      · exact (ih _ _ _ _ (by
          intro q hq
          injection hq with hq2
          subst hq2
          exact ⟨hq1, hq2, hq4⟩) hsrest).2

/-- C6 (amended): for every configuration with `initial_capital ≥ 1` and
every price series, an all-Hold signal sequence yields position 0,
holdings 0 and `total_value = initial_capital` at every snapshot, with no
circuit breaker firing.  The original claim allowed any configuration;
with `0 < initial_capital < 1` the below-1 liquidation breaker fires at
bar 0 and zeroes the run (`C6_cex`). -/
theorem C6_amended (cfg : Config) (bars : List Bar) (hcap : 1 ≤ cfg.initial_capital)
    (hsig : ∀ b ∈ bars, b.signal = 0) :
    (∀ r ∈ run cfg bars, r.position = 0 ∧ r.holdings = 0
        ∧ r.total_value = cfg.initial_capital) ∧
    (runI cfg bars).2 = none := by
  have h := runAux_hold cfg hcap bars none 0 cfg.initial_capital 0
    (by intro p hp; cases hp) hsig
  exact ⟨fun r hr => ⟨(h.1 r hr).1, (h.1 r hr).2.2.1, (h.1 r hr).2.2.2⟩, h.2⟩

/-- Counterexample for C6 as stated: with the valid configuration
`initial_capital = 1/2` (spec only requires `> 0`) and a single Hold bar,
the forced liquidation fires at bar 0 and the snapshot's total value is 0,
not the initial capital. -/
theorem C6_cex :
    (runI cfgHalf barsOne).2 = some 0 ∧
    ¬ (((run cfgHalf barsOne).getD 0 blankRow).total_value = cfgHalf.initial_capital) :=
  of_decide_eq_true (by with_unfolding_all rfl)

/-- Witness for C6 (amended) on a concrete one-bar all-Hold run. -/
theorem C6_amended_witness :
    ((run cfgA barsOne).getD 0 blankRow).total_value = cfgA.initial_capital ∧
    (runI cfgA barsOne).2 = none :=
  ⟨((C6_amended cfgA barsOne (of_decide_eq_true (by with_unfolding_all rfl))
      (of_decide_eq_true (by with_unfolding_all rfl))).1 _
      (of_decide_eq_true (by with_unfolding_all rfl))).2.2,
   (C6_amended cfgA barsOne (of_decide_eq_true (by with_unfolding_all rfl))
      (of_decide_eq_true (by with_unfolding_all rfl))).2⟩

/-- C2, evaluation at the failing input: in the run `barsHalt` the
50%-drop circuit breaker fires at bar 1 (total value falls 100 to -100)
and the remaining row is frozen at bar 0's state — but `Backtester.run`'s
results dict exposes no `halted_early` flag or halting timestamp; the
halt index exists only in the model's instrumentation (and, in the code,
in log output). -/
theorem C2_halt_outcome :
    (runI cfgA barsHalt).2 = some 1 ∧
    (run cfgA barsHalt).map Row.total_value = [100, -100, 100] :=
  of_decide_eq_true (by with_unfolding_all rfl)

/-- C5, evaluation at the failing input: on bars with High 101 / Low 99 /
Close 100 constant, `+DI = -DI = 0`, so the DX denominator `+DI + -DI` is
0 and `_calculate_adx` computes `0/0`, i.e. NaN (`none`), at every bar —
not the defined value 0 required by the spec; the ADX rolling mean over
the all-NaN window is NaN as well. -/
theorem C5_dx_nan :
    plusDI 14 hlcFlat = [some 0, some 0] ∧
    minusDI 14 hlcFlat = [some 0, some 0] ∧
    dxSeries 14 hlcFlat = [none, none] ∧
    adxSeries 14 hlcFlat = [none, none] :=
  of_decide_eq_true (by with_unfolding_all rfl)

/-- Every output of the holding-period filter loop is either the original
signal at that index or 0, for any loop state. -/
theorem amhpAux_getD (mp : ℕ) (l : List ℤ) :
    ∀ (i : ℕ) (pos : ℤ) (ps : ℕ) (t : ℕ),
    (amhpAux mp l i pos ps).getD t 0 = l.getD t 0
      ∨ (amhpAux mp l i pos ps).getD t 0 = 0 := by
  induction l with
  | nil => intro i pos ps t; simp [amhpAux]
  | cons s rest ih =>
    intro i pos ps t
    simp only [amhpAux]
    split_ifs with h1 h2 h3 h4
    all_goals
      cases t with
      | zero => simp
      | succ u => simpa using ih _ _ _ u

/-- While the filter's position state is 0, signals pass through until the
first nonzero signal, which is kept unchanged. -/
theorem amhpAux_first (mp : ℕ) (l : List ℤ) :
    ∀ (i ps : ℕ) (j : ℕ), (∀ k, k < j → l.getD k 0 = 0) → l.getD j 0 ≠ 0 →
    (amhpAux mp l i 0 ps).getD j 0 = l.getD j 0 := by
  induction l with
  | nil => intro i ps j hpre hj; simp at hj
  | cons s rest ih =>
    intro i ps j hpre hj
    cases j with
    | zero =>
      have hs : s ≠ 0 := by simpa using hj
      simp only [amhpAux]
      rw [if_pos hs]
      simp
    | succ u =>
      have hs : s = 0 := by simpa using hpre 0 (Nat.succ_pos u)
      simp only [amhpAux]
      rw [if_neg (by simp [hs])]
      simp only [List.getD_cons_succ]
      exact ih _ _ u (fun k hk => by simpa using hpre (k + 1) (Nat.succ_lt_succ hk))
        (by simpa using hj)

/-- C10: for every signal sequence and every `min_periods`, the
minimum-holding-period filter is pointwise non-inventing — each output is
the original signal or 0 (so it never creates a signal from Hold and never
flips a sign) — and the first nonzero signal of the input is preserved
unchanged. -/
theorem C10_filter (l : List ℤ) (mp : ℕ) :
    (∀ t : ℕ, (amhp mp l).getD t 0 = l.getD t 0 ∨ (amhp mp l).getD t 0 = 0) ∧
    (∀ j : ℕ, (∀ k, k < j → l.getD k 0 = 0) → l.getD j 0 ≠ 0 →
      (amhp mp l).getD j 0 = l.getD j 0) :=
  ⟨fun t => amhpAux_getD mp l 0 0 0 t,
   fun j hpre hj => amhpAux_first mp l 0 0 j hpre hj⟩

/-- Witness for C10 on the sequence `[0, 1, -1]` with `min_periods = 5`:
the first nonzero signal (index 1) is preserved. -/
theorem C10_filter_witness :
    ((amhp 5 [0, 1, -1]).getD 1 0 = ([0, 1, -1] : List ℤ).getD 1 0
      ∨ (amhp 5 [0, 1, -1]).getD 1 0 = 0) ∧
    (amhp 5 [0, 1, -1]).getD 1 0 = ([0, 1, -1] : List ℤ).getD 1 0 :=
  ⟨(C10_filter [0, 1, -1] 5).1 1,
   (C10_filter [0, 1, -1] 5).2 1
     (fun k hk => by
       have hk0 : k = 0 := Nat.lt_one_iff.mp hk
       subst hk0
       rfl)
     (by decide)⟩

/-- The fold of `min` over a list is a lower bound of the start value and
all elements. -/
theorem foldlMin_le (xs : List ℚ) : ∀ (x y : ℚ), y ∈ x :: xs → xs.foldl min x ≤ y := by
  induction xs with
  | nil =>
    intro x y hy
    rcases List.mem_cons.1 hy with h | h
    · subst h; simp
    · simp at h
  | cons z zs ih =>
    intro x y hy
    simp only [List.foldl_cons]
    rcases List.mem_cons.1 hy with h | h
    · subst h
      exact le_trans (ih _ _ (List.mem_cons_self _ _)) (min_le_left _ _)
    · rcases List.mem_cons.1 h with h2 | h2
      · subst h2
        exact le_trans (ih _ _ (List.mem_cons_self _ _)) (min_le_right _ _)
      · exact ih (min x z) y (List.mem_cons_of_mem _ h2)

/-- The fold of `min` is attained: it is the start value or one of the
elements. -/
theorem foldlMin_mem (xs : List ℚ) : ∀ x : ℚ, xs.foldl min x ∈ x :: xs := by
  induction xs with
  | nil => intro x; simp
  | cons z zs ih =>
    intro x
    simp only [List.foldl_cons]
    rcases List.mem_cons.1 (ih (min x z)) with h | h
    · rcases min_choice x z with hc | hc
      · rw [h, hc]
        exact List.mem_cons_self x (z :: zs)
      · rw [h, hc]
        exact List.mem_cons_of_mem x (List.mem_cons_self z zs)
    · exact List.mem_cons_of_mem x (List.mem_cons_of_mem z h)

/-- `filterMap id` undoes `map some` (a NaN-free series survives the
pandas NaN skipping untouched). -/
theorem filterMap_id_map_some (l : List ℚ) : (l.map some).filterMap id = l := by
  induction l with
  | nil => rfl
  | cons x xs ih => simp [List.filterMap_cons, ih]

/-- The skip-NaN minimum of a NaN-free series is its plain minimum. -/
theorem minSkipNa_map_some (x : ℚ) (xs : List ℚ) :
    minSkipNa ((x :: xs).map some) = some (xs.foldl min x) := by
  simp only [minSkipNa, filterMap_id_map_some]

/-- With a positive running peak no drawdown division is `0/0`: the
NaN-aware drawdown series equals the plain one. -/
theorem ddAuxN_pos (vs : List ℚ) : ∀ peak : ℚ, 0 < peak →
    ddAuxN peak vs = (ddAuxP peak vs).map some := by
  induction vs with
  | nil => intro peak h; rfl
  | cons v vs ih =>
    intro peak hpeak
    have hM : (0 : ℚ) < max peak v := lt_of_lt_of_le hpeak (le_max_left _ _)
    simp only [ddAuxN, ddAuxP, List.map_cons, pdiv, if_neg (ne_of_gt hM)]
    rw [ih _ hM]

/-- With a positive running peak every drawdown `(v - peak)/peak` is
nonpositive. -/
theorem ddAuxP_nonpos (vs : List ℚ) : ∀ peak : ℚ, 0 < peak →
    ∀ x ∈ ddAuxP peak vs, x ≤ 0 := by
  induction vs with
  | nil => intro peak _ x hx; simp [ddAuxP] at hx
  | cons v vs ih =>
    intro peak hpeak x hx
    have hM : (0 : ℚ) < max peak v := lt_of_lt_of_le hpeak (le_max_left _ _)
    simp only [ddAuxP] at hx
    rcases List.mem_cons.1 hx with h | h
    · subst h
      exact div_nonpos_iff.2 (Or.inr ⟨sub_nonpos.2 (le_max_right peak v), le_of_lt hM⟩)
    · exact ih _ hM x h

/-- With a positive running peak the drawdown series is identically zero
iff the values form an ascending chain starting at the peak. -/
theorem ddAuxP_zero_iff (vs : List ℚ) : ∀ peak : ℚ, 0 < peak →
    ((∀ x ∈ ddAuxP peak vs, x = 0) ↔ List.Chain (fun a b => a ≤ b) peak vs) := by
  induction vs with
  | nil => intro peak _; simp [ddAuxP]
  | cons v vs ih =>
    intro peak hpeak
    have hM : (0 : ℚ) < max peak v := lt_of_lt_of_le hpeak (le_max_left _ _)
    simp only [ddAuxP, List.forall_mem_cons, List.chain_cons]
    have hd0 : ((v - max peak v) / max peak v = 0) ↔ peak ≤ v := by
      rw [div_eq_zero_iff]
      constructor
      · intro h
        rcases h with h | h
        · have : v = max peak v := by linarith [sub_eq_zero.1 h]
          exact max_eq_right_iff.1 this.symm
        · exact absurd h (ne_of_gt hM)
      · intro h
        exact Or.inl (by rw [max_eq_right h, sub_self])
    constructor
    · intro ⟨h1, h2⟩
      have hle : peak ≤ v := hd0.1 h1
      refine ⟨hle, ?_⟩
      rw [max_eq_right hle] at h2
      exact (ih v (lt_of_lt_of_le hpeak hle)).1 h2
    · intro ⟨hle, hch⟩
      refine ⟨hd0.2 hle, ?_⟩
      rw [max_eq_right hle]
      exact (ih v (lt_of_lt_of_le hpeak hle)).2 hch

/-- `_calculate_max_drawdown` on an equity curve with a positive first
value: the result is a defined value `m ≤ 0`, and `m = 0` iff the curve is
non-decreasing. -/
theorem calc_mdd_pos_head (v : ℚ) (vs : List ℚ) (hv : 0 < v) :
    ∃ m, calc_max_drawdown (v :: vs) = some m ∧ m ≤ 0 ∧
      (m = 0 ↔ List.Chain' (fun a b => a ≤ b) (v :: vs)) := by
  have hdd : ddAuxP v (v :: vs) = 0 :: ddAuxP v vs := by
    simp [ddAuxP, max_self, sub_self]
  have hcalc : calc_max_drawdown (v :: vs) = some ((ddAuxP v vs).foldl min 0) := by
    show minSkipNa (ddAuxN v (v :: vs)) = _
    rw [ddAuxN_pos _ _ hv, hdd, minSkipNa_map_some]
  refine ⟨(ddAuxP v vs).foldl min 0, hcalc, ?_, ?_⟩
  · exact foldlMin_le _ _ _ (List.mem_cons_self _ _)
  · have hch : List.Chain' (fun a b : ℚ => a ≤ b) (v :: vs)
        ↔ List.Chain (fun a b : ℚ => a ≤ b) v vs := Iff.rfl
    rw [hch, ← ddAuxP_zero_iff vs v hv]
    constructor
    · intro hm x hx
      have h1 : (ddAuxP v vs).foldl min 0 ≤ x :=
        foldlMin_le _ _ _ (List.mem_cons_of_mem _ hx)
      have h2 : x ≤ 0 := ddAuxP_nonpos vs v hv x hx
      rw [hm] at h1
      linarith
    · intro hall
      rcases List.mem_cons.1 (foldlMin_mem (ddAuxP v vs) 0) with h | h
      · exact h
      · exact hall _ h

/-- For a validated configuration (positive initial capital, nonnegative
position size) and a positive price, the first bar's total value equals
the initial capital whatever the signal: a buy converts cash into equally
valued holdings, a short leaves cash unchanged with zero mark-to-market
P&L, and a hold carries the initial capital. -/
theorem stepRow_first_total (cfg : Config) (eL dsv : ℚ) (b : Bar)
    (hcap : 0 < cfg.initial_capital) (hps : 0 ≤ cfg.position_size) (hp : 0 < b.price) :
    ((stepRow cfg none eL dsv b).1).total_value = cfg.initial_capital := by
  have heff : effSignal cfg 0 eL b.price b.signal = b.signal := by
    simp [effSignal]
  have hstep : ((stepRow cfg none eL dsv b).1).total_value
      = (tradeExec cfg none 0 cfg.initial_capital b.signal b.price eL).cash
        + holdingsVal (tradeExec cfg none 0 cfg.initial_capital b.signal b.price eL).position
            (tradeExec cfg none 0 cfg.initial_capital b.signal b.price eL).posAfter
            (tradeExec cfg none 0 cfg.initial_capital b.signal b.price eL).entryCol
            (tradeExec cfg none 0 cfg.initial_capital b.signal b.price eL).eLoc b.price := by
    simp only [stepRow, prevPos, dayCash, heff]
  rw [hstep]
  set c := cfg.initial_capital with hc
  by_cases h1 : b.signal = 1
  · have htv0 : 0 ≤ min c (c * cfg.position_size) :=
      le_min (le_of_lt hcap) (mul_nonneg (le_of_lt hcap) hps)
    have hclamp : ¬ (c - min c (c * cfg.position_size) < 0) :=
      not_lt.2 (sub_nonneg.2 (min_le_left _ _))
    have hte : tradeExec cfg none 0 c b.signal b.price eL
        = ⟨min c (c * cfg.position_size) / b.price, c - min c (c * cfg.position_size),
           0, 1, b.price⟩ := by
      simp [tradeExec, h1, hclamp]
    rw [hte]
    rcases lt_or_eq_of_le htv0 with htv | htv
    · have hsh : 0 < min c (c * cfg.position_size) / b.price := div_pos htv hp
      have hhv : holdingsVal (min c (c * cfg.position_size) / b.price) 1 0 b.price b.price
          = min c (c * cfg.position_size) := by
        rw [holdingsVal, if_pos hsh]
        exact div_mul_cancel₀ _ (ne_of_gt hp)
      show c - min c (c * cfg.position_size)
          + holdingsVal (min c (c * cfg.position_size) / b.price) 1 0 b.price b.price = c
      rw [hhv]
      ring
    · show c - min c (c * cfg.position_size)
          + holdingsVal (min c (c * cfg.position_size) / b.price) 1 0 b.price b.price = c
      rw [← htv, zero_div]
      simp [holdingsVal]
  · by_cases h2 : b.signal = -1
    · have hclamp : ¬ (c < 0) := not_lt.2 (le_of_lt hcap)
      have hte : tradeExec cfg none 0 c b.signal b.price eL
          = ⟨-(min c (c * cfg.position_size) / b.price), c, b.price, -1, b.price⟩ := by
        simp [tradeExec, h1, h2, hclamp]
      rw [hte]
      show c + holdingsVal (-(min c (c * cfg.position_size) / b.price)) (-1)
          b.price b.price b.price = c
      have htv0 : 0 ≤ min c (c * cfg.position_size) :=
        le_min (le_of_lt hcap) (mul_nonneg (le_of_lt hcap) hps)
      rcases lt_or_eq_of_le htv0 with htv | htv
      · have hsh : -(min c (c * cfg.position_size) / b.price) < 0 :=
          neg_lt_zero.2 (div_pos htv hp)
        have hhv : holdingsVal (-(min c (c * cfg.position_size) / b.price)) (-1)
            b.price b.price b.price = 0 := by
          rw [holdingsVal, if_neg (not_lt.2 (le_of_lt hsh)), if_pos hsh, if_pos rfl,
            if_pos hp, sub_self, zero_mul]
        rw [hhv, add_zero]
      · rw [← htv, zero_div, neg_zero]
        simp [holdingsVal]
    · have hte : tradeExec cfg none 0 c b.signal b.price eL
          = ⟨0, c, 0, 0, eL⟩ := by
        simp [tradeExec, h1, h2]
      rw [hte]
      show c + holdingsVal 0 0 0 eL b.price = c
      simp [holdingsVal]

/-- With `initial_capital ≥ 1` the first bar never triggers the forced
liquidation, so the run output starts with the first step row. -/
theorem run_cons (cfg : Config) (b : Bar) (rest : List Bar)
    (hcap : 1 ≤ cfg.initial_capital)
    (htot : ((stepRow cfg none 0 cfg.initial_capital b).1).total_value
      = cfg.initial_capital) :
    run cfg (b :: rest)
      = (stepRow cfg none 0 cfg.initial_capital b).1
        :: (runAux cfg rest (some (stepRow cfg none 0 cfg.initial_capital b).1)
             (stepRow cfg none 0 cfg.initial_capital b).2.1
             (stepRow cfg none 0 cfg.initial_capital b).2.2 1).1 := by
  have hnl : ¬ (((stepRow cfg none 0 cfg.initial_capital b).1).total_value < 1) := by
    rw [htot]
    exact not_lt.2 hcap
  simp only [run, runI, runAux, hnl, if_neg, if_false]

/-- C8 (amended): for every run from a validated configuration with
`initial_capital ≥ 1`, nonnegative `position_size` and positive prices,
`max_drawdown` is a defined value `≤ 0` and equals 0 iff the `total_value`
sequence is non-decreasing throughout the run.  The original claim had no
proviso; with `0 < initial_capital < 1` the run is zeroed by the
liquidation breaker at bar 0 and the float drawdown is NaN (`0/0` against
a zero peak), neither `≤ 0` nor 0 (`C8_cex`). -/
theorem C8_amended (cfg : Config) (bars : List Bar) (hcap : 1 ≤ cfg.initial_capital)
    (hps : 0 ≤ cfg.position_size) (hpr : ∀ b ∈ bars, 0 < b.price) (hne : bars ≠ []) :
    ∃ m, calc_max_drawdown ((run cfg bars).map Row.total_value) = some m ∧ m ≤ 0 ∧
      (m = 0 ↔ List.Chain' (fun a b => a ≤ b) ((run cfg bars).map Row.total_value)) := by
  rcases bars with _ | ⟨b, rest⟩
  · exact absurd rfl hne
  have h0 : 0 < cfg.initial_capital := lt_of_lt_of_le one_pos hcap
  have htot := stepRow_first_total cfg 0 cfg.initial_capital b h0 hps
    (hpr b (List.mem_cons_self b rest))
  rw [run_cons cfg b rest hcap htot]
  rw [List.map_cons, htot]
  exact calc_mdd_pos_head cfg.initial_capital _ h0

/-- Counterexample for C8 as stated: with the valid configuration
`initial_capital = 1/2` the equity curve is `[0, 0]` — non-decreasing —
yet `max_drawdown` is NaN (`none`), not 0 and not `≤ 0`. -/
theorem C8_cex :
    calc_max_drawdown ((run cfgHalf barsTwo).map Row.total_value) = none ∧
    (run cfgHalf barsTwo).map Row.total_value = [0, 0] :=
  of_decide_eq_true (by with_unfolding_all rfl)

/-- Witness for C8 (amended) on a concrete one-bar run. -/
theorem C8_amended_witness :
    ∃ m, calc_max_drawdown ((run cfgA barsOne).map Row.total_value) = some m ∧ m ≤ 0 ∧
      (m = 0 ↔ List.Chain' (fun a b => a ≤ b) ((run cfgA barsOne).map Row.total_value)) :=
  C8_amended cfgA barsOne (of_decide_eq_true (by with_unfolding_all rfl))
    (of_decide_eq_true (by with_unfolding_all rfl))
    (of_decide_eq_true (by with_unfolding_all rfl))
    (of_decide_eq_true (by with_unfolding_all rfl))
